import Mathlib

/-!
Verification of the diskomap log/replay engine against its specification.

The development shallowly embeds the Rust sources:
  src/text_format.rs, src/bin_format.rs, src/format.rs (loader, codecs,
  integrity, converter), src/index.rs and src/map_with_file.rs (wrapper and
  secondary index).

Modelling conventions:
* Byte strings are `List Nat` (each element one byte; inputs of interest are
  ASCII, so Rust `str` positions and byte positions coincide).
* `usize` is modelled as a 64-bit quantity (`to_le_bytes` yields 8 bytes),
  matching the 64-bit platforms the crate targets.
* The external serializers (serde_json / bincode2) are modelled at the
  concrete instantiations used by the repository's own tests
  (`u64` keys/values, `Vec<u8>` values for the binary variant); generic
  loader functions take the parse functions as parameters, exactly as the
  Rust functions are generic over `DeserializeOwned`.
* The external hash primitives SHA-1/SHA-256 are opaque collaborators: all
  definitions that need them take them as function parameters.  CRC-32
  (IEEE) is implemented concretely because concrete claims depend on its
  values.
* A Rust panic (out-of-bounds slice) is a distinct observable outcome of
  the loader, separate from `Ok` and from returning a `LoadFileError`.
-/

set_option maxRecDepth 8000

namespace Diskomap

/-- An operation record: `MapOperation` from src/format.rs. -/
inductive MapOperation (K V : Type) where
  | insert (k : K) (v : V)
  | remove (k : K)
deriving DecidableEq, Repr

/-! ### Decimal ASCII encoding (Rust `u32::to_string`, serde_json numbers) -/

/-- Little-endian decimal digit values of `n` (empty for 0); the first
argument is fuel, sufficient whenever `fuel ≥ n`. -/
def natToDecAux : Nat → Nat → List Nat
  | 0, _ => []
  | _ + 1, 0 => []
  | fuel + 1, n + 1 => ((n + 1) % 10) :: natToDecAux fuel ((n + 1) / 10)

/-- Decimal ASCII bytes of `n`, as `u32::to_string`/`u64::to_string`
produce (most significant digit first, bytes 48..57). -/
def natToDec (n : Nat) : List Nat :=
  if n = 0 then [48] else ((natToDecAux n n).reverse.map (fun d => d + 48))

/-- Value of a little-endian digit list. -/
def ofDigLSB : List Nat → Nat
  | [] => 0
  | d :: t => d + 10 * ofDigLSB t

theorem natToDecAux_spec : ∀ (fuel n : Nat), n ≤ fuel →
    ofDigLSB (natToDecAux fuel n) = n := by
  intro fuel
  induction fuel with
  | zero => intro n h; interval_cases n; rfl
  | succ f ih =>
    intro n h
    match n with
    | 0 => rfl
    | m + 1 =>
      have hdiv : (m + 1) / 10 ≤ f := by
        have := Nat.div_lt_self (Nat.succ_pos m) (by norm_num : 1 < 10)
        omega
      simp only [natToDecAux, ofDigLSB, ih _ hdiv]
      omega

theorem natToDecAux_lt_ten : ∀ (fuel n d : Nat),
    d ∈ natToDecAux fuel n → d < 10 := by
  intro fuel
  induction fuel with
  | zero => intro n d h; simp [natToDecAux] at h
  | succ f ih =>
    intro n d h
    match n with
    | 0 => simp [natToDecAux] at h
    | m + 1 =>
      simp only [natToDecAux, List.mem_cons] at h
      rcases h with h | h
      · subst h; exact Nat.mod_lt _ (by norm_num)
      · exact ih _ _ h

theorem natToDec_bounds {n d : Nat} (h : d ∈ natToDec n) :
    48 ≤ d ∧ d ≤ 57 := by
  unfold natToDec at h
  by_cases h0 : n = 0
  · simp [h0] at h; omega
  · simp only [h0, if_false, List.mem_map, List.mem_reverse] at h
    obtain ⟨e, he, rfl⟩ := h
    have := natToDecAux_lt_ten n n e he
    omega

theorem natToDec_ne_nil (n : Nat) : natToDec n ≠ [] := by
  unfold natToDec
  by_cases h0 : n = 0
  · simp [h0]
  · simp only [h0, if_false]
    match m : n with
    | 0 => omega
    | k + 1 => simp [natToDecAux]

/-! ### serde_json number parsing for `u64` (model)

`serde_json::from_str::<u64>` on the inputs produced by this crate's own
encoder: a nonempty run of decimal digits, optionally followed by
whitespace.  (Leading zeros / surrounding whitespace variations that the
encoder never produces are not distinguished by this model.) -/

/-- ASCII decimal digit test. -/
def isDigit (b : Nat) : Bool := decide (48 ≤ b) && decide (b ≤ 57)

/-- Rust `char::is_whitespace` restricted to ASCII. -/
def isWs (b : Nat) : Bool :=
  decide (b = 9) || decide (b = 10) || decide (b = 11) ||
  decide (b = 12) || decide (b = 13) || decide (b = 32)

/-- Value of a most-significant-first ASCII digit run. -/
def decValue (ds : List Nat) : Nat :=
  ds.foldl (fun a d => a * 10 + (d - 48)) 0

/-- Parse a decimal number prefix; returns the value and the rest. -/
def parsePosNat (s : List Nat) : Option (Nat × List Nat) :=
  match s.takeWhile isDigit with
  | [] => none
  | ds => some (decValue ds, s.dropWhile isDigit)

/-- `r` does not begin with a digit. -/
def headNotDigit : List Nat → Prop
  | [] => True
  | b :: _ => isDigit b = false

theorem takeWhile_append_of_all {p : Nat → Bool} :
    ∀ (a r : List Nat), (∀ d ∈ a, p d = true) →
    (a ++ r).takeWhile p = a ++ r.takeWhile p := by
  intro a
  induction a with
  | nil => intro r _; rfl
  | cons x t ih =>
    intro r hall
    have hx : p x = true := hall x (List.mem_cons_self x t)
    simp only [List.cons_append, List.takeWhile_cons, hx, if_true]
    rw [ih r (fun d hd => hall d (List.mem_cons_of_mem x hd))]

theorem dropWhile_append_of_all {p : Nat → Bool} :
    ∀ (a r : List Nat), (∀ d ∈ a, p d = true) →
    (a ++ r).dropWhile p = r.dropWhile p := by
  intro a
  induction a with
  | nil => intro r _; rfl
  | cons x t ih =>
    intro r hall
    have hx : p x = true := hall x (List.mem_cons_self x t)
    simp only [List.cons_append, List.dropWhile_cons, hx, if_true]
    exact ih r (fun d hd => hall d (List.mem_cons_of_mem x hd))

theorem takeWhile_of_headNot {p : Nat → Bool} (r : List Nat)
    (h : match r with | [] => True | b :: _ => p b = false) :
    r.takeWhile p = [] := by
  cases r with
  | nil => rfl
  | cons b t => simp [List.takeWhile_cons, h]

theorem dropWhile_of_headNot {p : Nat → Bool} (r : List Nat)
    (h : match r with | [] => True | b :: _ => p b = false) :
    r.dropWhile p = r := by
  cases r with
  | nil => rfl
  | cons b t => simp [List.dropWhile_cons, h]

theorem foldl_msb (step : Nat → Nat → Nat)
    (hstep : ∀ a d, step a d = a * 10 + (d - 48)) :
    ∀ (L : List Nat) (a : Nat), (∀ d ∈ L, d < 10) →
    List.foldl step a ((L.reverse).map (fun d => d + 48)) =
      a * 10 ^ L.length + ofDigLSB L := by
  intro L
  induction L with
  | nil => intro a _; simp [ofDigLSB]
  | cons D T ih =>
    intro a hall
    have hD : D < 10 := hall D (List.mem_cons_self D T)
    have hT : ∀ d ∈ T, d < 10 := fun d hd => hall d (List.mem_cons_of_mem D hd)
    simp only [List.reverse_cons, List.map_append, List.map_cons, List.map_nil,
      List.foldl_append, List.foldl_cons, List.foldl_nil]
    rw [ih a hT, hstep]
    simp only [ofDigLSB, List.length_cons]
    ring_nf
    omega

theorem decValue_natToDec (n : Nat) : decValue (natToDec n) = n := by
  unfold natToDec decValue
  by_cases h0 : n = 0
  · simp [h0]
  · simp only [h0, if_false]
    rw [foldl_msb _ (fun a d => rfl) _ 0 (fun d hd => natToDecAux_lt_ten n n d hd)]
    rw [natToDecAux_spec n n (le_refl n)]
    simp

theorem natToDec_all_digit {n : Nat} : ∀ d ∈ natToDec n, isDigit d = true := by
  intro d hd
  have := natToDec_bounds hd
  simp only [isDigit, Bool.and_eq_true, decide_eq_true_eq]
  omega

theorem parsePosNat_encode (n : Nat) (r : List Nat) (hr : headNotDigit r) :
    parsePosNat (natToDec n ++ r) = some (n, r) := by
  unfold parsePosNat
  rw [takeWhile_append_of_all _ _ (fun d hd => natToDec_all_digit d hd)]
  rw [takeWhile_of_headNot r hr, List.append_nil]
  rw [dropWhile_append_of_all _ _ (fun d hd => natToDec_all_digit d hd)]
  rw [dropWhile_of_headNot r hr]
  have hne := natToDec_ne_nil n
  cases hm : natToDec n with
  | nil => exact absurd hm hne
  | cons x t =>
    simp only []
    rw [← hm, decValue_natToDec]

/-! ### Concrete serde_json model at `(u64, u64)`

`serde_json::to_string(&(&k, &v))` produces the compact text `[k,v]`;
`serde_json::to_string(&k)` produces the decimal text of `k`. -/

/-- JSON bytes of the pair `(k, v)`: `[` k `,` v `]`. -/
def jsonKVNat (k v : Nat) : List Nat :=
  91 :: (natToDec k ++ 44 :: (natToDec v ++ [93]))

/-- JSON bytes of the key `k` (a bare decimal number). -/
def jsonKNat (k : Nat) : List Nat := natToDec k

/-- `serde_json::from_str::<(u64, u64)>` on a byte slice. -/
def parseKVNat (s : List Nat) : Option (Nat × Nat) :=
  match s with
  | [] => none
  | b :: s1 =>
    if b = 91 then
      match parsePosNat s1 with
      | some (k, c :: s2) =>
        if c = 44 then
          match parsePosNat s2 with
          | some (v, d :: s3) =>
            if d = 93 then (if s3.all isWs then some (k, v) else none)
            else none
          | _ => none
        else none
      | _ => none
    else none

/-- `serde_json::from_str::<u64>` on a byte slice. -/
def parseKNat (s : List Nat) : Option Nat :=
  match parsePosNat s with
  | some (k, r) => if r.all isWs then some k else none
  | none => none

/-! ### CRC-32 (IEEE), as `crc::crc32::checksum_ieee` -/

/-- One bit-round of the reflected CRC-32 computation. -/
def crc32Step (c : Nat) : Nat :=
  if c % 2 = 1 then Nat.xor (c / 2) 0xEDB88320 else c / 2

/-- Absorb one byte into the running CRC register. -/
def crc32Update (c b : Nat) : Nat := crc32Step^[8] (Nat.xor c b)

/-- `crc32::checksum_ieee(bytes)`. -/
def crc32 (data : List Nat) : Nat :=
  Nat.xor (data.foldl crc32Update 0xFFFFFFFF) 0xFFFFFFFF

/-! ### Lower-case hex encoding, as `hex::encode` -/

/-- Lower-case hex digit of a nibble value. -/
def hexDigit (n : Nat) : Nat := if n < 10 then 48 + n else 87 + n

/-- `hex::encode(bytes)` in lower case, two digits per byte. -/
def hexEncode (bytes : List Nat) : List Nat :=
  bytes.flatMap (fun b => [hexDigit (b / 16 % 16), hexDigit (b % 16)])

/-! ### Integrity configuration and errors (src/cfg.rs, src/format.rs) -/

/-- `Integrity` from src/cfg.rs; the chain variants carry the running seed. -/
inductive Integrity where
  | crc32
  | sha1Chain (prev : List Nat)
  | sha256Chain (prev : List Nat)
deriving DecidableEq, Repr

/-- `IntegrityError` from src/format.rs. -/
inductive IntegrityError where
  | noExpectedHash (lineNum : Nat)
  | crc32Error (lineNum : Nat)
  | sha1ChainError (lineNum : Nat)
  | sha256ChainError (lineNum : Nat)
deriving DecidableEq, Repr

/-- `LoadFileError` from src/format.rs (io-error payloads abstracted away;
the cancellation variants never arise in the modelled sinks). -/
inductive LoadFileError where
  | lastLineWithoutEndLine (lineNum : Nat)
  | fileLineLengthLessThenMinimum (lineNum : Nat)
  | wrongMinBinBlockLen
  | fileError
  | integrityError (e : IntegrityError)
  | deserializeJsonError (lineNum : Nat)
  | deserializeBincodeError (blockNum : Nat)
  | noLineDefinition (lineNum : Nat)
deriving DecidableEq, Repr

/-- Outcome of running a loader to completion: clean success, a returned
`LoadFileError`, or a Rust panic (out-of-bounds slice). -/
inductive LoadOutcome where
  | success
  | failure (e : LoadFileError)
  | panicked
deriving DecidableEq, Repr

/-- External hash-chain primitives (the `crypto` crate collaborators):
`sha1 prev data` models `blockchain_sha1(prev, data)` = SHA1(prev ‖ SHA1(data))
from src/format.rs, and `sha256` the SHA-256 analogue.  All definitions are
parametric in them; no property of the hashes is assumed. -/
structure HashPrims where
  sha1 : List Nat → List Nat → List Nat
  sha256 : List Nat → List Nat → List Nat

/-! ### Text codec (src/text_format.rs) -/

/-- `str::rfind(' ')`: position of the last space byte, if any. -/
def rfindSpace : List Nat → Option Nat
  | [] => none
  | b :: t =>
    match rfindSpace t with
    | some i => some (i + 1)
    | none => if b = 32 then some 0 else none

/-- `str::trim_end` (ASCII whitespace suffices for the inputs at hand). -/
def trimEnd (l : List Nat) : List Nat := (l.reverse.dropWhile isWs).reverse

/-- `process_line_integrity` from src/text_format.rs: split the line on its
last space, recompute the tag over the prefix, compare byte-exact, and on
success return the significant bytes and the advanced integrity state. -/
def processLineIntegrity (H : HashPrims) (line : List Nat) (intg : Integrity)
    (lineNum : Nat) : Except IntegrityError (List Nat × Integrity) :=
  match rfindSpace line with
  | none => .error (.noExpectedHash lineNum)
  | some dataIndex =>
    let lineData := line.take dataIndex
    let hashInFile := trimEnd (line.drop (dataIndex + 1))
    match intg with
    | .crc32 =>
      if natToDec (crc32 lineData) = hashInFile then .ok (lineData, .crc32)
      else .error (.crc32Error lineNum)
    | .sha1Chain prev =>
      let cur := H.sha1 prev lineData
      if hexEncode cur = hashInFile then .ok (lineData, .sha1Chain cur)
      else .error (.sha1ChainError lineNum)
    | .sha256Chain prev =>
      let cur := H.sha256 prev lineData
      if hexEncode cur = hashInFile then .ok (lineData, .sha256Chain cur)
      else .error (.sha256ChainError lineNum)

/-- `post_process_text_file_line`: append the integrity tag (if configured)
and the trailing newline; returns the line and the advanced seed. -/
def postProcessTextFileLine (H : HashPrims) (line : List Nat)
    (intg : Option Integrity) : List Nat × Option Integrity :=
  match intg with
  | none => (line ++ [10], none)
  | some .crc32 => (line ++ 32 :: (natToDec (crc32 line) ++ [10]), some .crc32)
  | some (.sha1Chain prev) =>
    let h := H.sha1 prev line
    (line ++ 32 :: (hexEncode h ++ [10]), some (.sha1Chain h))
  | some (.sha256Chain prev) =>
    let h := H.sha256 prev line
    (line ++ 32 :: (hexEncode h ++ [10]), some (.sha256Chain h))

/-- The 4 opcode bytes of an insert line: the ASCII of `ins` and a space. -/
def insTag : List Nat := [105, 110, 115, 32]

/-- The 4 opcode bytes of a remove line: the ASCII of `rem` and a space. -/
def remTag : List Nat := [114, 101, 109, 32]

/-- `text_file_line_of_insert` at the `(u64, u64)` instantiation (where
serialization cannot fail). -/
def textFileLineOfInsertNat (H : HashPrims) (k v : Nat)
    (intg : Option Integrity) : List Nat × Option Integrity :=
  postProcessTextFileLine H (insTag ++ jsonKVNat k v) intg

/-- `file_line_of_remove` at the `u64` instantiation. -/
def fileLineOfRemoveNat (H : HashPrims) (k : Nat)
    (intg : Option Integrity) : List Nat × Option Integrity :=
  postProcessTextFileLine H (remTag ++ jsonKNat k) intg

/-- Encode one operation as a text line, threading the integrity seed. -/
def textEncodeOp (H : HashPrims) (op : MapOperation Nat Nat)
    (intg : Option Integrity) : List Nat × Option Integrity :=
  match op with
  | .insert k v => textFileLineOfInsertNat H k v intg
  | .remove k => fileLineOfRemoveNat H k intg

/-- Encode a list of operations as consecutive text lines (what the wrapper
appends to the log file), threading the integrity seed. -/
def textEncodeList (H : HashPrims) : List (MapOperation Nat Nat) →
    Option Integrity → List Nat × Option Integrity
  | [], intg => ([], intg)
  | op :: t, intg =>
    let p := textEncodeOp H op intg
    let q := textEncodeList H t p.2
    (p.1 ++ q.1, q.2)

/-! ### Splitting a byte stream into lines (`BufRead::read_line`) -/

/-- Helper for `splitNl`; the accumulator holds the current line reversed. -/
def splitNlAux : List Nat → List Nat → List (List Nat)
  | [], acc => if acc.isEmpty then [] else [acc.reverse]
  | b :: t, acc =>
    if b = 10 then (b :: acc).reverse :: splitNlAux t []
    else splitNlAux t (b :: acc)

/-- The successive results of `read_line`: each chunk ends with the byte 10
except possibly the last one. -/
def splitNl (l : List Nat) : List (List Nat) := splitNlAux l []

/-! ### The text loader (`load_from_text_file`)

Generic over the deserializers, exactly as the Rust function is generic over
`Key/Value: DeserializeOwned`; the sink collects the delivered operations.
The dedicated `panicked` outcome marks the state in which the Rust code
evaluates `&line_data[..4]` with `line_data.len() < 4` and panics. -/

/-- Result of processing one line: a delivered operation together with the
advanced integrity state, a load error, or a Rust panic. -/
inductive LineStep (K V : Type) where
  | op (o : MapOperation K V) (intg2 : Option Integrity)
  | err (e : LoadFileError)
  | panicked
deriving DecidableEq, Repr

/-- The per-line body of `load_from_text_file`: newline check, minimum
length check, integrity verification (which strips the tag and advances the
seed), opcode dispatch on the first 4 bytes, JSON deserialization. -/
def processLine {K V : Type} (H : HashPrims)
    (pKV : List Nat → Option (K × V)) (pK : List Nat → Option K)
    (line : List Nat) (n : Nat) (intg : Option Integrity) : LineStep K V :=
  if line.getLast? ≠ some 10 then
    .err (.lastLineWithoutEndLine n)
  else if line.length < 4 then
    .err (.fileLineLengthLessThenMinimum n)
  else
    match (match intg with
           | none => Except.ok (line, none)
           | some ig =>
             (processLineIntegrity H line ig n).map
               (fun (p : List Nat × Integrity) => (p.1, some p.2))) with
    | .error e => .err (.integrityError e)
    | .ok (lineData, intg2) =>
      if lineData.length < 4 then .panicked
      else if lineData.take 4 = insTag then
        match pKV (lineData.drop 4) with
        | none => .err (.deserializeJsonError n)
        | some (k, v) => .op (.insert k v) intg2
      else if lineData.take 4 = remTag then
        match pK (lineData.drop 4) with
        | none => .err (.deserializeJsonError n)
        | some k => .op (.remove k) intg2
      else .err (.noLineDefinition n)

def loadLinesGo {K V : Type} (H : HashPrims)
    (pKV : List Nat → Option (K × V)) (pK : List Nat → Option K) :
    List (List Nat) → Nat → Option Integrity →
    List (MapOperation K V) × LoadOutcome
  | [], _, _ => ([], .success)
  | line :: rest, n, intg =>
    match processLine H pKV pK line n intg with
    | .err e => ([], .failure e)
    | .panicked => ([], .panicked)
    | .op o intg2 =>
      let p := loadLinesGo H pKV pK rest (n + 1) intg2
      (o :: p.1, p.2)

/-- `load_from_text_file`: delivered operations plus final outcome. -/
def loadFromTextFile {K V : Type} (H : HashPrims)
    (pKV : List Nat → Option (K × V)) (pK : List Nat → Option K)
    (input : List Nat) (intg : Option Integrity) :
    List (MapOperation K V) × LoadOutcome :=
  loadLinesGo H pKV pK (splitNl input) 1 intg

/-- The text loader at the `(u64, u64)` instantiation. -/
def loadTextNat (H : HashPrims) (input : List Nat) (intg : Option Integrity) :
    List (MapOperation Nat Nat) × LoadOutcome :=
  loadFromTextFile H parseKVNat parseKNat input intg

/-! ### The in-memory map (`MapTrait` over `BTreeMap`), as an assoc list -/

/-- `BTreeMap::get`. -/
def lookupA {α : Type} : List (Nat × α) → Nat → Option α
  | [], _ => none
  | (k, v) :: t, j => if j = k then some v else lookupA t j

/-- `BTreeMap::remove` (observationally: the key is gone). -/
def eraseA {α : Type} (l : List (Nat × α)) (k : Nat) : List (Nat × α) :=
  l.filter (fun p => decide (p.1 ≠ k))

/-- `BTreeMap::insert` (observationally: the key now maps to `v`). -/
def setA {α : Type} (l : List (Nat × α)) (k : Nat) (v : α) : List (Nat × α) :=
  (k, v) :: eraseA l k

/-- Replay one operation into the map, as `map_from_text_file` /
`map_from_bin_file` do. -/
def applyOp (m : List (Nat × Nat)) : MapOperation Nat Nat → List (Nat × Nat)
  | .insert k v => setA m k v
  | .remove k => eraseA m k

/-- Replay a whole operation sequence from the empty map. -/
def replayMap (ops : List (MapOperation Nat Nat)) : List (Nat × Nat) :=
  ops.foldl applyOp []

/-! ### Byte-level facts about the encoded pieces -/

theorem take_append_length {α : Type} : ∀ (a r : List α), (a ++ r).take a.length = a := by
  intro a r
  induction a with
  | nil => rfl
  | cons x t ih => simp [List.take, ih]

theorem drop_append_length {α : Type} : ∀ (a r : List α), (a ++ r).drop a.length = r := by
  intro a r
  induction a with
  | nil => rfl
  | cons x t ih => simp [List.drop, ih]

theorem getLast_append_single {α : Type} : ∀ (l : List α) (a : α),
    (l ++ [a]).getLast? = some a := by
  intro l a
  induction l with
  | nil => rfl
  | cons x t ih =>
    cases t with
    | nil => rfl
    | cons y u => simpa using ih

theorem hexEncode_ge48 {l : List Nat} : ∀ b ∈ hexEncode l, 48 ≤ b := by
  intro b hb
  simp only [hexEncode, List.mem_flatMap, List.mem_cons, List.mem_singleton] at hb
  obtain ⟨x, _, h⟩ := hb
  have h1 : ∀ n, 48 ≤ hexDigit n := by
    intro n; unfold hexDigit; split <;> omega
  rcases h with h | h | h
  · rw [h]; exact h1 _
  · rw [h]; exact h1 _
  · simp at h

theorem natToDec_ge48 {n : Nat} : ∀ b ∈ natToDec n, 48 ≤ b :=
  fun _ hb => (natToDec_bounds hb).1

theorem jsonKVNat_mem {k v b : Nat} (hb : b ∈ jsonKVNat k v) :
    b = 91 ∨ b = 44 ∨ b = 93 ∨ (48 ≤ b ∧ b ≤ 57) := by
  unfold jsonKVNat at hb
  rcases List.mem_cons.mp hb with h | h
  · exact Or.inl h
  rcases List.mem_append.mp h with h | h
  · exact Or.inr (Or.inr (Or.inr (natToDec_bounds h)))
  rcases List.mem_cons.mp h with h | h
  · exact Or.inr (Or.inl h)
  rcases List.mem_append.mp h with h | h
  · exact Or.inr (Or.inr (Or.inr (natToDec_bounds h)))
  · have hb93 := List.mem_singleton.mp h
    exact Or.inr (Or.inr (Or.inl hb93))

/-! Facts used by line framing: no byte 10 inside the significant bytes or
the tag, no byte 32 inside the tag, and no whitespace inside the tag. -/

theorem rfindSpace_none_of_no_space : ∀ (l : List Nat),
    (∀ b ∈ l, b ≠ 32) → rfindSpace l = none := by
  intro l
  induction l with
  | nil => intro; rfl
  | cons x t ih =>
    intro h
    have hx : x ≠ 32 := h x (List.mem_cons_self x t)
    simp only [rfindSpace, ih (fun b hb => h b (List.mem_cons_of_mem x hb))]
    simp [hx]

theorem rfindSpace_append_sep : ∀ (a r : List Nat), (∀ b ∈ r, b ≠ 32) →
    rfindSpace (a ++ 32 :: r) = some a.length := by
  intro a r hr
  induction a with
  | nil =>
    simp only [List.nil_append, rfindSpace, rfindSpace_none_of_no_space r hr]
    rfl
  | cons x t ih =>
    simp only [List.cons_append, rfindSpace, List.append_eq, ih, List.length_cons]

theorem dropWhile_all_false {p : Nat → Bool} : ∀ (l : List Nat),
    (∀ b ∈ l, p b = false) → l.dropWhile p = l := by
  intro l h
  cases l with
  | nil => rfl
  | cons x t => simp [List.dropWhile_cons, h x (List.mem_cons_self x t)]

theorem trimEnd_tag_nl {tag : List Nat} (h : ∀ b ∈ tag, isWs b = false) :
    trimEnd (tag ++ [10]) = tag := by
  unfold trimEnd
  rw [List.reverse_append]
  simp only [List.reverse_cons, List.reverse_nil, List.nil_append, List.cons_append,
    List.dropWhile_cons]
  have h10 : isWs 10 = true := by decide
  rw [h10]
  simp only [if_true]
  rw [dropWhile_all_false _ (fun b hb => h b (List.mem_reverse.mp hb))]
  exact List.reverse_reverse tag

theorem ge48_not_ws {b : Nat} (h : 48 ≤ b) : isWs b = false := by
  simp only [isWs, Bool.or_eq_false_iff, decide_eq_false_iff_not]
  omega

/-! ### Parsing the encoder's own output -/

theorem parseKVNat_encode (k v : Nat) (r : List Nat) (hr : r.all isWs = true) :
    parseKVNat (jsonKVNat k v ++ r) = some (k, v) := by
  have hshape : jsonKVNat k v ++ r =
      91 :: (natToDec k ++ 44 :: (natToDec v ++ 93 :: r)) := by
    simp [jsonKVNat]
  rw [hshape]
  simp only [parseKVNat]
  rw [parsePosNat_encode k (44 :: (natToDec v ++ 93 :: r))
    (show isDigit 44 = false by decide)]
  simp only [if_true, reduceIte]
  rw [parsePosNat_encode v (93 :: r) (show isDigit 93 = false by decide)]
  simp [hr]

theorem parseKNat_encode (k : Nat) (r : List Nat) (hr : r.all isWs = true) :
    parseKNat (jsonKNat k ++ r) = some k := by
  unfold parseKNat jsonKNat
  rw [parsePosNat_encode k r (by
    cases r with
    | nil => trivial
    | cons b t =>
      have hb : isWs b = true := by
        have := List.all_eq_true.mp hr b (List.mem_cons_self b t)
        simpa using this
      simp only [headNotDigit]
      simp only [isWs, Bool.or_eq_true, decide_eq_true_eq] at hb
      simp only [isDigit, Bool.and_eq_true, decide_eq_true_eq, Bool.and_eq_false_iff,
        decide_eq_false_iff_not]
      omega)]
  simp [hr]

/-! ### Splitting the concatenated encoded lines -/

theorem splitNlAux_append : ∀ (body rest acc : List Nat), (∀ b ∈ body, b ≠ 10) →
    splitNlAux (body ++ 10 :: rest) acc =
      (acc.reverse ++ (body ++ [10])) :: splitNl rest := by
  intro body
  induction body with
  | nil =>
    intro rest acc _
    simp [splitNlAux, splitNl]
  | cons x t ih =>
    intro rest acc h
    have hx : x ≠ 10 := h x (List.mem_cons_self x t)
    simp only [List.cons_append, splitNlAux, if_neg hx, List.append_eq]
    rw [ih rest (x :: acc) (fun b hb => h b (List.mem_cons_of_mem x hb))]
    simp

theorem splitNl_cons_line (body rest : List Nat) (h : ∀ b ∈ body, b ≠ 10) :
    splitNl ((body ++ [10]) ++ rest) = (body ++ [10]) :: splitNl rest := by
  have : (body ++ [10]) ++ rest = body ++ 10 :: rest := by simp
  rw [this]
  unfold splitNl
  rw [splitNlAux_append body rest [] h]
  simp [splitNl]

/-! ### Evaluating the loader on one encoded line -/

theorem take4_insTag (x : List Nat) : (insTag ++ x).take 4 = insTag :=
  take_append_length insTag x

theorem drop4_insTag (x : List Nat) : (insTag ++ x).drop 4 = x :=
  drop_append_length insTag x

theorem take4_remTag (x : List Nat) : (remTag ++ x).take 4 = remTag :=
  take_append_length remTag x

theorem drop4_remTag (x : List Nat) : (remTag ++ x).drop 4 = x :=
  drop_append_length remTag x

theorem drop_sep (data r : List Nat) :
    (data ++ 32 :: r).drop (data.length + 1) = r := by
  have h : data ++ 32 :: r = (data ++ [32]) ++ r := by simp
  have hl : (data ++ [32]).length = data.length + 1 := by simp
  rw [h, ← hl, drop_append_length]

theorem data_ne10_ins (k v : Nat) : ∀ b ∈ insTag ++ jsonKVNat k v, b ≠ 10 := by
  intro b hb
  rcases List.mem_append.mp hb with h | h
  · have hd : b = 105 ∨ b = 110 ∨ b = 115 ∨ b = 32 := by simpa [insTag] using h
    rcases hd with rfl | rfl | rfl | rfl <;> decide
  · rcases jsonKVNat_mem h with h | h | h | h <;> omega

theorem data_ne10_rem (k : Nat) : ∀ b ∈ remTag ++ jsonKNat k, b ≠ 10 := by
  intro b hb
  rcases List.mem_append.mp hb with h | h
  · have hd : b = 114 ∨ b = 101 ∨ b = 109 ∨ b = 32 := by simpa [remTag] using h
    rcases hd with rfl | rfl | rfl | rfl <;> decide
  · have := natToDec_bounds h; omega

/-- On a line the writer just produced under an active integrity
configuration, verification succeeds, returns exactly the significant bytes,
and advances the seed exactly as the writer did. -/
theorem processLineIntegrity_post (H : HashPrims) (ig : Integrity) (n : Nat)
    (data : List Nat) :
    ∃ ig2, (postProcessTextFileLine H data (some ig)).2 = some ig2 ∧
      processLineIntegrity H (postProcessTextFileLine H data (some ig)).1 ig n =
        Except.ok (data, ig2) := by
  cases ig with
  | crc32 =>
    refine ⟨.crc32, rfl, ?_⟩
    have hge : ∀ b ∈ natToDec (crc32 data), 48 ≤ b := fun b hb => natToDec_ge48 b hb
    have h32 : ∀ b ∈ natToDec (crc32 data) ++ [10], b ≠ 32 := by
      intro b hb
      rcases List.mem_append.mp hb with h | h
      · have := hge b h; omega
      · have := List.mem_singleton.mp h; omega
    have hfind := rfindSpace_append_sep data (natToDec (crc32 data) ++ [10]) h32
    have htake := take_append_length data (32 :: (natToDec (crc32 data) ++ [10]))
    have hdrop := drop_sep data (natToDec (crc32 data) ++ [10])
    have htrim := trimEnd_tag_nl (fun b hb => ge48_not_ws (hge b hb))
    simp only [postProcessTextFileLine, processLineIntegrity]
    rw [hfind]
    simp only [htake, hdrop, htrim]
    simp
  | sha1Chain prev =>
    refine ⟨.sha1Chain (H.sha1 prev data), rfl, ?_⟩
    have hge : ∀ b ∈ hexEncode (H.sha1 prev data), 48 ≤ b :=
      fun b hb => hexEncode_ge48 b hb
    have h32 : ∀ b ∈ hexEncode (H.sha1 prev data) ++ [10], b ≠ 32 := by
      intro b hb
      rcases List.mem_append.mp hb with h | h
      · have := hge b h; omega
      · have := List.mem_singleton.mp h; omega
    have hfind := rfindSpace_append_sep data (hexEncode (H.sha1 prev data) ++ [10]) h32
    have htake := take_append_length data (32 :: (hexEncode (H.sha1 prev data) ++ [10]))
    have hdrop := drop_sep data (hexEncode (H.sha1 prev data) ++ [10])
    have htrim := trimEnd_tag_nl (fun b hb => ge48_not_ws (hge b hb))
    simp only [postProcessTextFileLine, processLineIntegrity]
    rw [hfind]
    simp only [htake, hdrop, htrim]
    simp
  | sha256Chain prev =>
    refine ⟨.sha256Chain (H.sha256 prev data), rfl, ?_⟩
    have hge : ∀ b ∈ hexEncode (H.sha256 prev data), 48 ≤ b :=
      fun b hb => hexEncode_ge48 b hb
    have h32 : ∀ b ∈ hexEncode (H.sha256 prev data) ++ [10], b ≠ 32 := by
      intro b hb
      rcases List.mem_append.mp hb with h | h
      · have := hge b h; omega
      · have := List.mem_singleton.mp h; omega
    have hfind := rfindSpace_append_sep data (hexEncode (H.sha256 prev data) ++ [10]) h32
    have htake := take_append_length data (32 :: (hexEncode (H.sha256 prev data) ++ [10]))
    have hdrop := drop_sep data (hexEncode (H.sha256 prev data) ++ [10])
    have htrim := trimEnd_tag_nl (fun b hb => ge48_not_ws (hge b hb))
    simp only [postProcessTextFileLine, processLineIntegrity]
    rw [hfind]
    simp only [htake, hdrop, htrim]
    simp

theorem postProcess_getLast (H : HashPrims) (data : List Nat)
    (intg : Option Integrity) :
    (postProcessTextFileLine H data intg).1.getLast? = some 10 := by
  cases intg with
  | none => exact getLast_append_single data 10
  | some ig =>
    cases ig with
    | crc32 =>
      have h : data ++ 32 :: (natToDec (crc32 data) ++ [10]) =
          (data ++ 32 :: natToDec (crc32 data)) ++ [10] := by simp
      simp only [postProcessTextFileLine, h]
      exact getLast_append_single _ 10
    | sha1Chain prev =>
      have h : data ++ 32 :: (hexEncode (H.sha1 prev data) ++ [10]) =
          (data ++ 32 :: hexEncode (H.sha1 prev data)) ++ [10] := by simp
      simp only [postProcessTextFileLine, h]
      exact getLast_append_single _ 10
    | sha256Chain prev =>
      have h : data ++ 32 :: (hexEncode (H.sha256 prev data) ++ [10]) =
          (data ++ 32 :: hexEncode (H.sha256 prev data)) ++ [10] := by simp
      simp only [postProcessTextFileLine, h]
      exact getLast_append_single _ 10

theorem postProcess_len (H : HashPrims) (data : List Nat)
    (intg : Option Integrity) (h : 4 ≤ data.length) :
    ¬ (postProcessTextFileLine H data intg).1.length < 4 := by
  cases intg with
  | none => simp only [postProcessTextFileLine, List.length_append]; omega
  | some ig =>
    cases ig <;>
      simp only [postProcessTextFileLine, List.length_append, List.length_cons] <;>
      omega

theorem postProcess_split (H : HashPrims) (data : List Nat)
    (intg : Option Integrity) (h : ∀ b ∈ data, b ≠ 10) :
    ∃ body, (postProcessTextFileLine H data intg).1 = body ++ [10] ∧
      ∀ b ∈ body, b ≠ 10 := by
  cases intg with
  | none => exact ⟨data, rfl, h⟩
  | some ig =>
    cases ig with
    | crc32 =>
      refine ⟨data ++ 32 :: natToDec (crc32 data), by simp [postProcessTextFileLine], ?_⟩
      intro b hb
      rcases List.mem_append.mp hb with hm | hm
      · exact h b hm
      rcases List.mem_cons.mp hm with hm | hm
      · omega
      · have := natToDec_bounds hm; omega
    | sha1Chain prev =>
      refine ⟨data ++ 32 :: hexEncode (H.sha1 prev data),
        by simp [postProcessTextFileLine], ?_⟩
      intro b hb
      rcases List.mem_append.mp hb with hm | hm
      · exact h b hm
      rcases List.mem_cons.mp hm with hm | hm
      · omega
      · have := hexEncode_ge48 b hm; omega
    | sha256Chain prev =>
      refine ⟨data ++ 32 :: hexEncode (H.sha256 prev data),
        by simp [postProcessTextFileLine], ?_⟩
      intro b hb
      rcases List.mem_append.mp hb with hm | hm
      · exact h b hm
      rcases List.mem_cons.mp hm with hm | hm
      · omega
      · have := hexEncode_ge48 b hm; omega

theorem textEncodeOp_split (H : HashPrims) (op : MapOperation Nat Nat)
    (intg : Option Integrity) :
    ∃ body, (textEncodeOp H op intg).1 = body ++ [10] ∧ ∀ b ∈ body, b ≠ 10 := by
  cases op with
  | insert k v => exact postProcess_split H _ intg (data_ne10_ins k v)
  | remove k => exact postProcess_split H _ intg (data_ne10_rem k)

/-- Processing the line the writer just encoded (under the same integrity
state) delivers exactly that operation and advances the seed as the writer
did. -/
theorem processLine_encodeOp (H : HashPrims) (op : MapOperation Nat Nat)
    (intg : Option Integrity) (n : Nat) :
    processLine H parseKVNat parseKNat (textEncodeOp H op intg).1 n intg =
      .op op (textEncodeOp H op intg).2 := by
  cases op with
  | insert k v =>
    have hd4 : ¬ (insTag ++ jsonKVNat k v).length < 4 := by
      simp [insTag, List.length_append]
    cases intg with
    | none =>
      have h1 := postProcess_getLast H (insTag ++ jsonKVNat k v) none
      have h5 := postProcess_len H (insTag ++ jsonKVNat k v) none
        (by simp [insTag, List.length_append])
      have h2 : ((insTag ++ jsonKVNat k v) ++ [10]).take 4 = insTag := by
        rw [List.append_assoc]; exact take4_insTag _
      have h3 : ((insTag ++ jsonKVNat k v) ++ [10]).drop 4 = jsonKVNat k v ++ [10] := by
        rw [List.append_assoc]; exact drop4_insTag _
      have h4 := parseKVNat_encode k v [10] (by decide)
      simp only [textEncodeOp, textFileLineOfInsertNat, postProcessTextFileLine] at h1 h5 ⊢
      simp only [processLine, h1, h5, h2, h3, h4]
      simp
    | some ig =>
      obtain ⟨ig2, hig2, hpi⟩ := processLineIntegrity_post H ig n (insTag ++ jsonKVNat k v)
      have h1 := postProcess_getLast H (insTag ++ jsonKVNat k v) (some ig)
      have h5 := postProcess_len H (insTag ++ jsonKVNat k v) (some ig)
        (by simp [insTag, List.length_append])
      have h2 := take4_insTag (jsonKVNat k v)
      have h3 := drop4_insTag (jsonKVNat k v)
      have h4 : parseKVNat (jsonKVNat k v) = some (k, v) := by
        have := parseKVNat_encode k v [] (by decide)
        simpa using this
      simp only [textEncodeOp, textFileLineOfInsertNat] at hig2 hpi h1 h5 ⊢
      simp only [processLine, h1, h5, hpi, hig2, Except.map, h2, h3, h4, hd4]
      simp
  | remove k =>
    have hd4 : ¬ (remTag ++ jsonKNat k).length < 4 := by
      simp [remTag, List.length_append]
    have hnotins : ¬ remTag = insTag := by decide
    cases intg with
    | none =>
      have h1 := postProcess_getLast H (remTag ++ jsonKNat k) none
      have h5 := postProcess_len H (remTag ++ jsonKNat k) none
        (by simp [remTag, List.length_append])
      have h2 : ((remTag ++ jsonKNat k) ++ [10]).take 4 = remTag := by
        rw [List.append_assoc]; exact take4_remTag _
      have h3 : ((remTag ++ jsonKNat k) ++ [10]).drop 4 = jsonKNat k ++ [10] := by
        rw [List.append_assoc]; exact drop4_remTag _
      have h4 := parseKNat_encode k [10] (by decide)
      simp only [textEncodeOp, fileLineOfRemoveNat, postProcessTextFileLine] at h1 h5 ⊢
      simp only [processLine, h1, h5, h2, h3, h4, hnotins]
      simp
    | some ig =>
      obtain ⟨ig2, hig2, hpi⟩ := processLineIntegrity_post H ig n (remTag ++ jsonKNat k)
      have h1 := postProcess_getLast H (remTag ++ jsonKNat k) (some ig)
      have h5 := postProcess_len H (remTag ++ jsonKNat k) (some ig)
        (by simp [remTag, List.length_append])
      have h2 := take4_remTag (jsonKNat k)
      have h3 := drop4_remTag (jsonKNat k)
      have h4 : parseKNat (jsonKNat k) = some k := by
        have := parseKNat_encode k [] (by decide)
        simpa using this
      simp only [textEncodeOp, fileLineOfRemoveNat] at hig2 hpi h1 h5 ⊢
      simp only [processLine, h1, h5, hpi, hig2, Except.map, h2, h3, h4, hd4, hnotins]
      simp

/-- The loader, fed the line the writer just encoded (under the same
integrity state), delivers exactly that operation, advances the seed as the
writer did, and proceeds to the rest. -/
theorem loadLinesGo_encodeOp (H : HashPrims) (op : MapOperation Nat Nat)
    (intg : Option Integrity) (rest : List (List Nat)) (n : Nat) :
    loadLinesGo H parseKVNat parseKNat ((textEncodeOp H op intg).1 :: rest) n intg =
      ((op :: (loadLinesGo H parseKVNat parseKNat rest (n + 1) (textEncodeOp H op intg).2).1),
       (loadLinesGo H parseKVNat parseKNat rest (n + 1) (textEncodeOp H op intg).2).2) := by
  simp only [loadLinesGo, processLine_encodeOp]

/-- Loading the writer's own concatenated output recovers the operation list
exactly, for every starting integrity configuration. -/
theorem loadLinesGo_encodeList (H : HashPrims) :
    ∀ (L : List (MapOperation Nat Nat)) (intg : Option Integrity) (n : Nat),
    loadLinesGo H parseKVNat parseKNat (splitNl (textEncodeList H L intg).1) n intg =
      (L, .success) := by
  intro L
  induction L with
  | nil => intro intg n; simp [textEncodeList, splitNl, splitNlAux, loadLinesGo]
  | cons op t ih =>
    intro intg n
    obtain ⟨body, hbody, hb10⟩ := textEncodeOp_split H op intg
    simp only [textEncodeList]
    rw [hbody, splitNl_cons_line body _ hb10, ← hbody, loadLinesGo_encodeOp, ih]

/-- Text-format round-trip at the `(u64, u64)` instantiation. -/
theorem loadText_roundtrip (H : HashPrims) (L : List (MapOperation Nat Nat))
    (intg : Option Integrity) :
    loadTextNat H (textEncodeList H L intg).1 intg = (L, .success) :=
  loadLinesGo_encodeList H L intg 1

/-! ### Binary codec (src/bin_format.rs)

`usize` is 64-bit: `usize::to_le_bytes()` yields 8 bytes. -/

/-- Little-endian bytes of `n`, `w` bytes wide (`to_le_bytes`). -/
def leBytes (w n : Nat) : List Nat :=
  (List.range w).map (fun i => n / 256 ^ i % 256)

/-- `from_le_bytes`: value of a little-endian byte list. -/
def fromLE (l : List Nat) : Nat :=
  l.foldr (fun b acc => b + 256 * acc) 0

/-- `bin_block_len` from src/bin_format.rs: the length prefix written before
a record block.  Note the source pushes `len.to_le_bytes()` — all 8 bytes of
the `usize` — in every branch except the 1-byte class. -/
def binBlockLen (len : Nat) : List Nat :=
  if len ≤ 255 then [0, len % 256]
  else if len ≤ 65535 then 1 :: leBytes 8 len
  else if len ≤ 4294967295 then 2 :: leBytes 8 len
  else 3 :: leBytes 8 len

/-- Result of `read_bin_block_len`: clean end of file, an io error
(unexpected eof inside the prefix), a zero length (`WrongMinBinBlockLen`),
or the decoded length together with the unconsumed input. -/
inductive BinLenResult where
  | eof
  | ioErr
  | zeroLen
  | ok (len : Nat) (rest : List Nat)
deriving DecidableEq, Repr

/-- `read_bin_block_len` from src/bin_format.rs.  The first byte selects the
width of the length field: 0 → 1 byte, 1 → 2 bytes, 2 → 4 bytes, anything
else → 8 bytes (the source compares the whole byte, not its low 2 bits). -/
def readBinBlockLen (s : List Nat) : BinLenResult :=
  match s with
  | [] => .eof
  | b :: t =>
    let w : Nat := if b = 0 then 1 else if b = 1 then 2 else if b = 2 then 4 else 8
    if t.length < w then .ioErr
    else
      let len := fromLE (t.take w)
      if len = 0 then .zeroLen else .ok len (t.drop w)

theorem readBinBlockLen_ok_length {s rest : List Nat} {len : Nat}
    (h : readBinBlockLen s = .ok len rest) :
    rest.length + 2 ≤ s.length ∧ 1 ≤ len := by
  match s with
  | [] => simp [readBinBlockLen] at h
  | b :: t =>
    simp only [readBinBlockLen] at h
    set w : Nat := if b = 0 then 1 else if b = 1 then 2 else if b = 2 then 4 else 8 with hw
    have hw1 : 1 ≤ w := by
      rw [hw]; split <;> try omega
      split <;> try omega
      split <;> omega
    split at h
    · simp at h
    · split at h
      · simp at h
      · rename_i hlt hne
        have hinj := BinLenResult.ok.inj h
        obtain ⟨hlen, hrest⟩ := hinj
        constructor
        · rw [← hrest]
          simp only [List.length_cons, List.length_drop]
          omega
        · omega

/-- `process_block_integrity` from src/bin_format.rs.  (The source reports
`Sha1ChainError` for SHA-256 length/mismatch failures as well; modelled
verbatim.) -/
def processBlockIntegrity (H : HashPrims) (dataBlock : List Nat)
    (intg : Integrity) (blockNum : Nat) :
    Except IntegrityError (List Nat × Integrity) :=
  match intg with
  | .crc32 =>
    if dataBlock.length < 6 then .error (.crc32Error blockNum)
    else
      let data := dataBlock.take (dataBlock.length - 4)
      let crcInFile := fromLE (dataBlock.drop (dataBlock.length - 4))
      if crc32 data = crcInFile then .ok (data, .crc32)
      else .error (.crc32Error blockNum)
  | .sha1Chain prev =>
    if dataBlock.length < 21 then .error (.sha1ChainError blockNum)
    else
      let data := dataBlock.take (dataBlock.length - 20)
      let cur := H.sha1 prev data
      if cur = dataBlock.drop (dataBlock.length - 20) then .ok (data, .sha1Chain cur)
      else .error (.sha1ChainError blockNum)
  | .sha256Chain prev =>
    if dataBlock.length < 33 then .error (.sha1ChainError blockNum)
    else
      let data := dataBlock.take (dataBlock.length - 32)
      let cur := H.sha256 prev data
      if cur = dataBlock.drop (dataBlock.length - 32) then .ok (data, .sha256Chain cur)
      else .error (.sha1ChainError blockNum)

/-- `post_process_file_bin_block`: append the integrity tag (if configured)
to the block and advance the seed. -/
def postProcessFileBinBlock (H : HashPrims) (block : List Nat)
    (intg : Option Integrity) : List Nat × Option Integrity :=
  match intg with
  | none => (block, none)
  | some .crc32 => (block ++ leBytes 4 (crc32 block), some .crc32)
  | some (.sha1Chain prev) =>
    let h := H.sha1 prev block
    (block ++ h, some (.sha1Chain h))
  | some (.sha256Chain prev) =>
    let h := H.sha256 prev block
    (block ++ h, some (.sha256Chain h))

/-- `bin_file_block_of_insert`, generic over the bincode2 serializer of the
`(key, value)` pair (op byte 0, then payload, then optional tag, all behind
the length prefix). -/
def binFileBlockOfInsert {K V : Type} (H : HashPrims) (ser : K → V → List Nat)
    (k : K) (v : V) (intg : Option Integrity) : List Nat × Option Integrity :=
  let p := postProcessFileBinBlock H (0 :: ser k v) intg
  (binBlockLen p.1.length ++ p.1, p.2)

/-- `bin_file_block_of_remove`, generic over the bincode2 serializer of the
key (op byte 1). -/
def binFileBlockOfRemove {K : Type} (H : HashPrims) (ser : K → List Nat)
    (k : K) (intg : Option Integrity) : List Nat × Option Integrity :=
  let p := postProcessFileBinBlock H (1 :: ser k) intg
  (binBlockLen p.1.length ++ p.1, p.2)

/-- The loop body of `load_from_bin_file`, generic over the bincode2
deserializers, with the sink collecting the operations.  Operation dispatch:
byte 0 inserts, byte 1 removes, and any other op byte falls into the
wildcard arm of the source, which does nothing — the block is skipped and
loading continues.  The loop is driven by explicit fuel (each iteration
consumes at least two input bytes, so any fuel above the input length is
sufficient; see `loadBinGo_fuel`). -/
def loadBinGo {K V : Type} (H : HashPrims)
    (dKV : List Nat → Option (K × V)) (dK : List Nat → Option K) :
    Nat → List Nat → Nat → Option Integrity → List (MapOperation K V) × LoadOutcome
  | 0, _, _, _ => ([], .failure .fileError)
  | fuel + 1, s, n, intg =>
    match readBinBlockLen s with
    | .eof => ([], .success)
    | .ioErr => ([], .failure .fileError)
    | .zeroLen => ([], .failure .wrongMinBinBlockLen)
    | .ok len rest =>
      if rest.length < len then ([], .failure .fileError)
      else
        let block := rest.take len
        match (match intg with
               | none => Except.ok (block, none)
               | some ig =>
                 (processBlockIntegrity H block ig n).map
                   (fun (p : List Nat × Integrity) => (p.1, some p.2))) with
        | .error e => ([], .failure (.integrityError e))
        | .ok (data, intg2) =>
          match data with
          | [] => ([], .panicked)
          | op :: payload =>
            if op = 0 then
              match dKV payload with
              | none => ([], .failure (.deserializeBincodeError n))
              | some (k, v) =>
                let p := loadBinGo H dKV dK fuel (rest.drop len) (n + 1) intg2
                (.insert k v :: p.1, p.2)
            else if op = 1 then
              match dK payload with
              | none => ([], .failure (.deserializeBincodeError n))
              | some k =>
                let p := loadBinGo H dKV dK fuel (rest.drop len) (n + 1) intg2
                (.remove k :: p.1, p.2)
            else
              loadBinGo H dKV dK fuel (rest.drop len) (n + 1) intg2

/-- `load_from_bin_file`: run the loop with sufficient fuel. -/
def loadFromBinFile {K V : Type} (H : HashPrims)
    (dKV : List Nat → Option (K × V)) (dK : List Nat → Option K)
    (s : List Nat) (n : Nat) (intg : Option Integrity) :
    List (MapOperation K V) × LoadOutcome :=
  loadBinGo H dKV dK (s.length + 1) s n intg

/-- The result of the loop does not depend on the fuel, as long as the fuel
exceeds the input length. -/
theorem loadBinGo_fuel {K V : Type} (H : HashPrims)
    (dKV : List Nat → Option (K × V)) (dK : List Nat → Option K) :
    ∀ (f1 : Nat) (s : List Nat) (f2 n : Nat) (intg : Option Integrity),
    s.length < f1 → s.length < f2 →
    loadBinGo H dKV dK f1 s n intg = loadBinGo H dKV dK f2 s n intg := by
  intro f1
  induction f1 with
  | zero => intro s f2 n intg h1 _; omega
  | succ f ih =>
    intro s f2 n intg h1 h2
    match f2 with
    | 0 => omega
    | g + 1 =>
      simp only [loadBinGo]
      cases hres : readBinBlockLen s with
      | eof => rfl
      | ioErr => rfl
      | zeroLen => rfl
      | ok len rest =>
        have hh := readBinBlockLen_ok_length hres
        by_cases hlt : rest.length < len
        · simp [hlt]
        · simp only [if_neg hlt]
          have hrec : (rest.drop len).length < f ∧ (rest.drop len).length < g := by
            simp only [List.length_drop]
            omega
          cases hintg : (match intg with
               | none => Except.ok (rest.take len, none)
               | some ig =>
                 (processBlockIntegrity H (rest.take len) ig n).map
                   (fun (p : List Nat × Integrity) => (p.1, some p.2))) with
          | error e => rfl
          | ok q =>
            obtain ⟨data, intg2⟩ := q
            cases data with
            | nil => rfl
            | cons op payload =>
              by_cases hop0 : op = 0
              · simp only [hop0, if_pos rfl]
                cases dKV payload with
                | none => rfl
                | some kv =>
                  rw [ih (rest.drop len) g (n + 1) intg2 hrec.1 hrec.2]
              · by_cases hop1 : op = 1
                · simp only [if_neg hop0, hop1, if_pos rfl]
                  cases dK payload with
                  | none => rfl
                  | some k =>
                    rw [ih (rest.drop len) g (n + 1) intg2 hrec.1 hrec.2]
                · simp only [if_neg hop0, if_neg hop1]
                  exact ih (rest.drop len) g (n + 1) intg2 hrec.1 hrec.2

/-! ### Concrete bincode2 models -/

/-- `bincode2::serialize(&(&k, &v))` at `(u64, u64)`: 8 + 8 LE bytes. -/
def binSerKVNat (k v : Nat) : List Nat := leBytes 8 k ++ leBytes 8 v

/-- `bincode2::serialize(&k)` at `u64`. -/
def binSerKNat (k : Nat) : List Nat := leBytes 8 k

/-- `bincode2::deserialize::<(u64, u64)>` (trailing bytes are ignored, as
bincode does when reading from a slice). -/
def binDeserKVNat (s : List Nat) : Option (Nat × Nat) :=
  if s.length < 16 then none
  else some (fromLE (s.take 8), fromLE ((s.drop 8).take 8))

/-- `bincode2::deserialize::<u64>`. -/
def binDeserKNat (s : List Nat) : Option Nat :=
  if s.length < 8 then none else some (fromLE (s.take 8))

/-- `bincode2::serialize(&(&k, &v))` at `(u64, Vec<u8>)`: key, then the
vector length as `u64`, then the raw bytes. -/
def binSerKVVec (k : Nat) (v : List Nat) : List Nat :=
  leBytes 8 k ++ (leBytes 8 v.length ++ v)

/-- `bincode2::deserialize::<(u64, Vec<u8>)>`. -/
def binDeserKVVec (s : List Nat) : Option (Nat × List Nat) :=
  if s.length < 16 then none
  else
    let k := fromLE (s.take 8)
    let n := fromLE ((s.drop 8).take 8)
    if s.length < 16 + n then none
    else some (k, (s.drop 16).take n)

/-- Encode one operation in the binary format at `(u64, Vec<u8>)`. -/
def binEncodeOpVec (H : HashPrims) (op : MapOperation Nat (List Nat))
    (intg : Option Integrity) : List Nat × Option Integrity :=
  match op with
  | .insert k v => binFileBlockOfInsert H binSerKVVec k v intg
  | .remove k => binFileBlockOfRemove H binSerKNat k intg

/-- Encode a list of operations in the binary format at `(u64, Vec<u8>)`,
threading the integrity seed. -/
def binEncodeListVec (H : HashPrims) : List (MapOperation Nat (List Nat)) →
    Option Integrity → List Nat × Option Integrity
  | [], intg => ([], intg)
  | op :: t, intg =>
    let p := binEncodeOpVec H op intg
    let q := binEncodeListVec H t p.2
    (p.1 ++ q.1, q.2)

/-! ### Assoc-map lookup lemmas -/

theorem lookupA_eraseA {α : Type} (l : List (Nat × α)) (k j : Nat) :
    lookupA (eraseA l k) j = if j = k then none else lookupA l j := by
  induction l with
  | nil => simp [eraseA, lookupA]
  | cons p t ih =>
    obtain ⟨a, b⟩ := p
    simp only [eraseA, List.filter_cons] at ih ⊢
    by_cases hak : a = k
    · subst hak
      have hcond : (decide ((a, b).1 ≠ a)) = false := by simp
      rw [hcond]
      simp only [Bool.false_eq_true, if_false]
      rw [ih]
      by_cases hj : j = a
      · simp [hj]
      · simp [lookupA, hj]
    · have hcond : (decide ((a, b).1 ≠ k)) = true := by simp [hak]
      rw [hcond]
      simp only [if_true]
      simp only [lookupA]
      by_cases hj : j = a
      · subst hj
        simp [hak]
      · simp only [if_neg hj]
        exact ih

theorem lookupA_setA {α : Type} (l : List (Nat × α)) (k j : Nat) (v : α) :
    lookupA (setA l k v) j = if j = k then some v else lookupA l j := by
  simp only [setA, lookupA]
  by_cases hj : j = k
  · simp [hj]
  · simp only [if_neg hj]
    rw [lookupA_eraseA, if_neg hj]

/-! ### Secondary index (src/index.rs)

Buckets (`BTreeSet<OwnerKey>`) are modelled as `Finset Nat`; the bucket map
(`IndexMap`) as an assoc list observed through `lookupA`.  The `IndexMap`
trait has `get`, `get_mut` and `insert` only — there is no way to delete a
bucket. -/

/-- First half of `Index::on_insert`: when an old value existed and its
bucket is present, remove the key from that bucket. -/
def onInsertPhase1 (f : Nat → Nat) (idx : List (Nat × Finset Nat)) (k : Nat) :
    Option Nat → List (Nat × Finset Nat)
  | some o =>
    match lookupA idx (f o) with
    | some keys => setA idx (f o) (keys.erase k)
    | none => idx
  | none => idx

/-- Second half of `Index::on_insert`: add the key to the new value's
bucket, creating that bucket if missing. -/
def onInsertPhase2 (f : Nat → Nat) (idx1 : List (Nat × Finset Nat))
    (k v : Nat) : List (Nat × Finset Nat) :=
  match lookupA idx1 (f v) with
  | some keys => setA idx1 (f v) (insert k keys)
  | none => setA idx1 (f v) {k}

/-- `Index::on_insert`: remove the key from the old value's bucket (when an
old value existed and its bucket is present), then add it to the new
value's bucket, creating that bucket if missing. -/
def onInsert (f : Nat → Nat) (idx : List (Nat × Finset Nat)) (k v : Nat)
    (old : Option Nat) : List (Nat × Finset Nat) :=
  onInsertPhase2 f (onInsertPhase1 f idx k old) k v

/-- `Index::on_remove`: remove the key from the old value's bucket; the
bucket itself is never deleted. -/
def onRemove (f : Nat → Nat) (idx : List (Nat × Finset Nat)) (k : Nat)
    (oldVal : Nat) : List (Nat × Finset Nat) :=
  match lookupA idx (f oldVal) with
  | some keys => setA idx (f oldVal) (keys.erase k)
  | none => idx

/-! ### The wrapper (`MapWithFile`, src/map_with_file.rs)

State: in-memory map, the bucket map of one live index (with key function
`f`), the integrity seed, and the background writer's queue of payloads. -/

/-- `SerializedError` from src/map_with_file.rs (payload abstracted). -/
inductive SerializedError where
  | json
  | bincode
deriving DecidableEq, Repr

structure WrapperState where
  map : List (Nat × Nat)
  idx : List (Nat × Finset Nat)
  seed : Option Integrity
  queue : List (List Nat)
deriving DecidableEq

/-- `MapWithFile::insert`, text format, generic over the (fallible) serde
serializer and the optional before-write hook.  Order as in the source:
serialize (advancing the seed), insert into the map, apply the hook once,
enqueue, fan out to the indexes. -/
def wrapperInsertText (H : HashPrims) (ser : Nat → Nat → Option (List Nat))
    (hook : Option (List Nat → List Nat)) (f : Nat → Nat)
    (st : WrapperState) (k v : Nat) :
    Except SerializedError (Option Nat) × WrapperState :=
  match ser k v with
  | none => (.error .json, st)
  | some json =>
    let p := postProcessTextFileLine H (insTag ++ json) st.seed
    let old := lookupA st.map k
    let line := match hook with | some g => g p.1 | none => p.1
    (.ok old,
     { map := setA st.map k v
       idx := onInsert f st.idx k v old
       seed := p.2
       queue := st.queue ++ [line] })

/-- `MapWithFile::remove`, text format.  The source removes the key from the
in-memory map **before** serializing; when serialization fails, the `?`
operator returns the error with the key already gone and nothing else
updated. -/
def wrapperRemoveText (H : HashPrims) (serK : Nat → Option (List Nat))
    (hook : Option (List Nat → List Nat)) (f : Nat → Nat)
    (st : WrapperState) (k : Nat) :
    Except SerializedError (Option Nat) × WrapperState :=
  match lookupA st.map k with
  | none => (.ok none, st)
  | some old =>
    let st1 : WrapperState := { st with map := eraseA st.map k }
    match serK k with
    | none => (.error .json, st1)
    | some json =>
      let p := postProcessTextFileLine H (remTag ++ json) st1.seed
      let line := match hook with | some g => g p.1 | none => p.1
      (.ok (some old),
       { map := st1.map
         idx := onRemove f st1.idx k old
         seed := p.2
         queue := st1.queue ++ [line] })

/-- `MapWithFile::insert`, binary format.  The source applies the
before-write hook twice (two identical `if let` blocks). -/
def wrapperInsertBin (H : HashPrims) (ser : Nat → Nat → Option (List Nat))
    (hook : Option (List Nat → List Nat)) (f : Nat → Nat)
    (st : WrapperState) (k v : Nat) :
    Except SerializedError (Option Nat) × WrapperState :=
  match ser k v with
  | none => (.error .bincode, st)
  | some payload =>
    let p := postProcessFileBinBlock H (0 :: payload) st.seed
    let block0 := binBlockLen p.1.length ++ p.1
    let old := lookupA st.map k
    let block1 := match hook with | some g => g block0 | none => block0
    let block2 := match hook with | some g => g block1 | none => block1
    (.ok old,
     { map := setA st.map k v
       idx := onInsert f st.idx k v old
       seed := p.2
       queue := st.queue ++ [block2] })

/-- Run one operation through the text wrapper with the concrete `u64`
serde serializers (which always succeed) and no hook. -/
def wrapperApply (H : HashPrims) (f : Nat → Nat) (st : WrapperState)
    (op : MapOperation Nat Nat) : WrapperState :=
  match op with
  | .insert k v =>
    (wrapperInsertText H (fun a b => some (jsonKVNat a b)) none f st k v).2
  | .remove k =>
    (wrapperRemoveText H (fun a => some (jsonKNat a)) none f st k).2

/-- The wrapper state after a sequence of operations against a fresh map
with one freshly created (empty) index. -/
def wrapperRun (H : HashPrims) (f : Nat → Nat)
    (ops : List (MapOperation Nat Nat)) : WrapperState :=
  ops.foldl (wrapperApply H f) ⟨[], [], none, []⟩

/-! ### Index invariants (C2) -/

/-- The spec's "no empty bucket" invariant. -/
def NoEmptyBuckets (idx : List (Nat × Finset Nat)) : Prop :=
  ∀ ik B, lookupA idx ik = some B → B ≠ ∅

/-- Membership correctness of an index: every key in any bucket is present
in the map, and its value derives exactly that bucket's index key. -/
def IdxCorrect (f : Nat → Nat) (m : List (Nat × Nat))
    (idx : List (Nat × Finset Nat)) : Prop :=
  ∀ ik B, lookupA idx ik = some B → ∀ k ∈ B,
    ∃ v, lookupA m k = some v ∧ f v = ik

/-- Phase 2 of `on_insert`: add `k` to the new value's bucket.  If the
intermediate bucket map relates every key other than `k` correctly to the
old map, the result relates every key to the updated map. -/
theorem IdxCorrect_step2 (f : Nat → Nat) (m : List (Nat × Nat))
    (idx1 : List (Nat × Finset Nat)) (k v : Nat)
    (hmid1 : ∀ ik B, lookupA idx1 ik = some B → ∀ q ∈ B,
      q ≠ k ∧ ∃ w, lookupA m q = some w ∧ f w = ik) :
    IdxCorrect f (setA m k v) (onInsertPhase2 f idx1 k v) := by
  unfold onInsertPhase2
  cases hm1 : lookupA idx1 (f v) with
  | some keys =>
    show IdxCorrect f (setA m k v) (setA idx1 (f v) (insert k keys))
    intro ik B hB q hq
    rw [lookupA_setA] at hB
    by_cases hik : ik = f v
    · rw [if_pos hik] at hB
      injection hB with hB
      subst hB
      rcases Finset.mem_insert.mp hq with hqk | hq1
      · subst hqk
        refine ⟨v, ?_, hik.symm⟩
        rw [lookupA_setA, if_pos rfl]
      · obtain ⟨hqk, w, hw1, hw2⟩ := hmid1 (f v) keys hm1 q hq1
        refine ⟨w, ?_, by rw [hw2, hik]⟩
        rw [lookupA_setA, if_neg hqk]
        exact hw1
    · rw [if_neg hik] at hB
      obtain ⟨hqk, w, hw1, hw2⟩ := hmid1 ik B hB q hq
      refine ⟨w, ?_, hw2⟩
      rw [lookupA_setA, if_neg hqk]
      exact hw1
  | none =>
    show IdxCorrect f (setA m k v) (setA idx1 (f v) {k})
    intro ik B hB q hq
    rw [lookupA_setA] at hB
    by_cases hik : ik = f v
    · rw [if_pos hik] at hB
      injection hB with hB
      subst hB
      have hqk := Finset.mem_singleton.mp hq
      subst hqk
      refine ⟨v, ?_, hik.symm⟩
      rw [lookupA_setA, if_pos rfl]
    · rw [if_neg hik] at hB
      obtain ⟨hqk, w, hw1, hw2⟩ := hmid1 ik B hB q hq
      refine ⟨w, ?_, hw2⟩
      rw [lookupA_setA, if_neg hqk]
      exact hw1

theorem IdxCorrect_onInsert (f : Nat → Nat) (m : List (Nat × Nat))
    (idx : List (Nat × Finset Nat)) (k v : Nat) (h : IdxCorrect f m idx) :
    IdxCorrect f (setA m k v) (onInsert f idx k v (lookupA m k)) := by
  unfold onInsert
  cases hold : lookupA m k with
  | none =>
    simp only [onInsertPhase1]
    refine IdxCorrect_step2 f m idx k v ?_
    intro ik B hB q hq
    obtain ⟨w, hw1, hw2⟩ := h ik B hB q hq
    refine ⟨?_, w, hw1, hw2⟩
    intro hqk
    subst hqk
    rw [hold] at hw1
    exact Option.noConfusion hw1
  | some o =>
    simp only [onInsertPhase1]
    cases hbo : lookupA idx (f o) with
    | none =>
      refine IdxCorrect_step2 f m idx k v ?_
      intro ik B hB q hq
      obtain ⟨w, hw1, hw2⟩ := h ik B hB q hq
      refine ⟨?_, w, hw1, hw2⟩
      intro hqk
      subst hqk
      rw [hold] at hw1
      injection hw1 with hw1
      subst hw1
      rw [← hw2] at hB
      rw [hbo] at hB
      exact Option.noConfusion hB
    | some keys0 =>
      refine IdxCorrect_step2 f m (setA idx (f o) (keys0.erase k)) k v ?_
      intro ik B hB q hq
      rw [lookupA_setA] at hB
      by_cases hik : ik = f o
      · rw [if_pos hik] at hB
        injection hB with hB
        subst hB
        obtain ⟨w, hw1, hw2⟩ := h ik keys0 (by rw [hik]; exact hbo) q
          (Finset.mem_of_mem_erase hq)
        exact ⟨Finset.ne_of_mem_erase hq, w, hw1, hw2⟩
      · rw [if_neg hik] at hB
        obtain ⟨w, hw1, hw2⟩ := h ik B hB q hq
        refine ⟨?_, w, hw1, hw2⟩
        intro hqk
        subst hqk
        rw [hold] at hw1
        injection hw1 with hw1
        subst hw1
        exact hik hw2.symm

theorem IdxCorrect_onRemove (f : Nat → Nat) (m : List (Nat × Nat))
    (idx : List (Nat × Finset Nat)) (k o : Nat)
    (hold : lookupA m k = some o) (h : IdxCorrect f m idx) :
    IdxCorrect f (eraseA m k) (onRemove f idx k o) := by
  unfold onRemove
  cases hbo : lookupA idx (f o) with
  | none =>
    show IdxCorrect f (eraseA m k) idx
    intro ik B hB q hq
    obtain ⟨w, hw1, hw2⟩ := h ik B hB q hq
    have hqk : q ≠ k := by
      intro hqk
      subst hqk
      rw [hold] at hw1
      injection hw1 with hw1
      subst hw1
      rw [← hw2] at hB
      rw [hbo] at hB
      exact Option.noConfusion hB
    refine ⟨w, ?_, hw2⟩
    rw [lookupA_eraseA, if_neg hqk]
    exact hw1
  | some keys0 =>
    show IdxCorrect f (eraseA m k) (setA idx (f o) (keys0.erase k))
    intro ik B hB q hq
    rw [lookupA_setA] at hB
    by_cases hik : ik = f o
    · rw [if_pos hik] at hB
      injection hB with hB
      subst hB
      have hqk := Finset.ne_of_mem_erase hq
      obtain ⟨w, hw1, hw2⟩ := h ik keys0 (by rw [hik]; exact hbo) q
        (Finset.mem_of_mem_erase hq)
      refine ⟨w, ?_, hw2⟩
      rw [lookupA_eraseA, if_neg hqk]
      exact hw1
    · rw [if_neg hik] at hB
      obtain ⟨w, hw1, hw2⟩ := h ik B hB q hq
      have hqk : q ≠ k := by
        intro hqk
        subst hqk
        rw [hold] at hw1
        injection hw1 with hw1
        subst hw1
        exact hik hw2.symm
      refine ⟨w, ?_, hw2⟩
      rw [lookupA_eraseA, if_neg hqk]
      exact hw1

theorem IdxCorrect_wrapperApply (H : HashPrims) (f : Nat → Nat)
    (st : WrapperState) (op : MapOperation Nat Nat)
    (h : IdxCorrect f st.map st.idx) :
    IdxCorrect f (wrapperApply H f st op).map (wrapperApply H f st op).idx := by
  cases op with
  | insert k v =>
    simp only [wrapperApply, wrapperInsertText]
    exact IdxCorrect_onInsert f st.map st.idx k v h
  | remove k =>
    simp only [wrapperApply, wrapperRemoveText]
    cases hold : lookupA st.map k with
    | none => exact h
    | some o => exact IdxCorrect_onRemove f st.map st.idx k o hold h

theorem IdxCorrect_wrapperRun (H : HashPrims) (f : Nat → Nat)
    (ops : List (MapOperation Nat Nat)) :
    IdxCorrect f (wrapperRun H f ops).map (wrapperRun H f ops).idx := by
  suffices hgen : ∀ (l : List (MapOperation Nat Nat)) (st : WrapperState),
      IdxCorrect f st.map st.idx →
      IdxCorrect f (l.foldl (wrapperApply H f) st).map
        (l.foldl (wrapperApply H f) st).idx by
    apply hgen
    intro ik B hB
    simp [lookupA] at hB
  intro l
  induction l with
  | nil => intro st h; exact h
  | cons op t ih =>
    intro st h
    exact ih _ (IdxCorrect_wrapperApply H f st op h)

/-! ### The converter (src/format.rs) -/

/-- `Format` from src/cfg.rs (the hook slots are `None` in the modelled
runs, so only the selector matters here). -/
inductive Format where
  | text
  | bin
deriving DecidableEq, Repr

/-- `ConvertError` from src/format.rs, restricted to the variants that can
arise without a file system. -/
inductive ConvertError where
  | serializeError
  | loadFileError (e : LoadFileError)
deriving DecidableEq, Repr

/-- Result of `convert`: destination content, a `ConvertError`, or a panic
propagated from the loader. -/
inductive ConvertResult where
  | ok (dstContent : List Nat)
  | err (e : ConvertError)
  | panicked
deriving DecidableEq, Repr

/-- `convert` from src/format.rs at the `(u64, u64)` instantiation: load the
source under `srcFmt`/`srcIntg`, pipe each delivered record through `f`, and
append its **text** encoding under `dstIntg` — the source encodes with
`text_file_line_of_insert`/`file_line_of_remove` in both match arms and
never consults the destination's format.  Since the `u64` serializer is
total, the sink never fails, and the function's `Result` mirrors the
loader's outcome. -/
def convert (H : HashPrims) (srcFmt : Format) (srcIntg dstIntg : Option Integrity)
    (f : MapOperation Nat Nat → MapOperation Nat Nat) (src : List Nat) :
    ConvertResult :=
  let p := match srcFmt with
           | .text => loadTextNat H src srcIntg
           | .bin => loadFromBinFile H binDeserKVNat binDeserKNat src 1 srcIntg
  match p.2 with
  | .success => .ok (textEncodeList H (p.1.map f) dstIntg).1
  | .failure e => .err (.loadFileError e)
  | .panicked => .panicked

/-! ### Concrete instantiations used by witnesses and counterexamples -/

/-- A concrete instantiation of the external hash primitives (their values
never matter to the theorems below; round-trips hold for every `HashPrims`). -/
def trivialHash : HashPrims := ⟨fun p d => p ++ d, fun p d => p ++ d⟩

/-- A 248-byte value; its binary insert record block is 265 bytes long,
which makes `bin_block_len` choose the 2-byte length class. -/
def bigVal : List Nat := List.replicate 248 7

/-- A serde serializer that fails on key 0 (serde_json serialization is
fallible for user-defined types). -/
def serFail (k : Nat) : Option (List Nat) :=
  if k = 0 then none else some (jsonKNat k)

/-- A before-write hook that appends one byte 255 to the payload. -/
def appendByte (l : List Nat) : List Nat := l ++ [255]

/-! ### Unterminated trailing lines (C9) -/

theorem getLast_cons_of_ne_nil {α : Type} (x : α) (l : List α) (hl : l ≠ []) :
    (x :: l).getLast? = l.getLast? := by
  cases l with
  | nil => exact absurd rfl hl
  | cons y t => simp [List.getLast?_cons_cons]

/-- Every chunk of a newline-terminated input ends with the byte 10. -/
theorem splitNlAux_all_terminated : ∀ (input acc : List Nat),
    input.getLast? = some 10 →
    ∀ l ∈ splitNlAux input acc, l.getLast? = some 10 := by
  intro input
  induction input with
  | nil => intro acc h; simp at h
  | cons b t ih =>
    intro acc h l hl
    by_cases hb : b = 10
    · subst hb
      simp only [splitNlAux, if_pos rfl] at hl
      rcases List.mem_cons.mp hl with hx | hx
      · subst hx
        simp only [List.reverse_cons]
        exact getLast_append_single _ 10
      · by_cases htne : t = []
        · rw [htne] at hx
          simp [splitNlAux] at hx
        · refine ih [] ?_ l hx
          rw [← getLast_cons_of_ne_nil 10 t htne]
          exact h
    · simp only [splitNlAux, if_neg hb] at hl
      by_cases htne : t = []
      · rw [htne] at h
        simp at h
        exact absurd h hb
      · refine ih (b :: acc) ?_ l hl
        rw [← getLast_cons_of_ne_nil b t htne]
        exact h

/-- When the input does not end with the byte 10, the chunk list is
nonempty and its final chunk does not end with 10. -/
theorem splitNlAux_last_unterminated : ∀ (input acc : List Nat) (b : Nat),
    input.getLast? = some b → b ≠ 10 →
    ∃ last, (splitNlAux input acc).getLast? = some last ∧
      last.getLast? ≠ some 10 := by
  intro input
  induction input with
  | nil => intro acc b h; simp at h
  | cons b1 t ih =>
    intro acc b h hb
    by_cases htne : t = []
    · subst htne
      simp only [List.getLast?_singleton] at h
      injection h with h
      subst h
      refine ⟨(b1 :: acc).reverse, ?_, ?_⟩
      · simp [splitNlAux, hb]
      · simp only [List.reverse_cons]
        rw [getLast_append_single]
        simp [hb]
    · have hlast : t.getLast? = some b := by
        rw [← getLast_cons_of_ne_nil b1 t htne]
        exact h
      by_cases hb1 : b1 = 10
      · subst hb1
        rw [show splitNlAux (10 :: t) acc = (10 :: acc).reverse :: splitNlAux t []
          from by simp [splitNlAux]]
        obtain ⟨last, hl1, hl2⟩ := ih [] b hlast hb
        refine ⟨last, ?_, hl2⟩
        rw [getLast_cons_of_ne_nil]
        · exact hl1
        · intro hnil
          rw [hnil] at hl1
          simp at hl1
      · simp only [splitNlAux, if_neg hb1]
        exact ih (b1 :: acc) b hlast hb

/-- Part (a): a chunk list whose final chunk is unterminated never loads
successfully. -/
theorem loadLinesGo_unterminated_no_success {K V : Type} (H : HashPrims)
    (pKV : List Nat → Option (K × V)) (pK : List Nat → Option K) :
    ∀ (lines : List (List Nat)) (n : Nat) (intg : Option Integrity)
      (last : List Nat), lines.getLast? = some last →
      last.getLast? ≠ some 10 →
      (loadLinesGo H pKV pK lines n intg).2 ≠ .success := by
  intro lines
  induction lines with
  | nil => intro n intg last hl _; simp at hl
  | cons line rest ih =>
    intro n intg last hl hlast
    cases rest with
    | nil =>
      have hle : line = last := by simpa using hl
      subst hle
      have hstep : processLine (K := K) (V := V) H pKV pK line n intg =
          .err (.lastLineWithoutEndLine n) := by
        unfold processLine
        rw [if_pos hlast]
      simp [loadLinesGo, hstep]
    | cons l2 rest2 =>
      have hl2 : (l2 :: rest2).getLast? = some last := by
        rw [← getLast_cons_of_ne_nil line (l2 :: rest2) (List.cons_ne_nil l2 rest2)]
        exact hl
      simp only [loadLinesGo]
      cases hstep : processLine (K := K) (V := V) H pKV pK line n intg with
      | err e => simp
      | panicked => simp
      | op o intg2 =>
        simp only []
        exact ih (n + 1) intg2 last hl2 hlast

/-- Part (b): if the loader would process the earlier lines successfully,
appending an unterminated final line makes loading fail with
`LastLineWithoutEndLine` carrying that line's 1-based index, with exactly
the earlier operations delivered. -/
theorem loadLinesGo_unterminated_exact {K V : Type} (H : HashPrims)
    (pKV : List Nat → Option (K × V)) (pK : List Nat → Option K) :
    ∀ (pre : List (List Nat)) (n : Nat) (intg : Option Integrity)
      (last : List Nat),
    (loadLinesGo H pKV pK pre n intg).2 = .success →
    last.getLast? ≠ some 10 →
    loadLinesGo H pKV pK (pre ++ [last]) n intg =
      ((loadLinesGo H pKV pK pre n intg).1,
       .failure (.lastLineWithoutEndLine (n + pre.length))) := by
  intro pre
  induction pre with
  | nil =>
    intro n intg last _ hlast
    have hstep : processLine (K := K) (V := V) H pKV pK last n intg =
        .err (.lastLineWithoutEndLine n) := by
      unfold processLine
      rw [if_pos hlast]
    simp [loadLinesGo, hstep]
  | cons line rest ih =>
    intro n intg last hsucc hlast
    simp only [List.cons_append, loadLinesGo] at hsucc ⊢
    cases hstep : processLine (K := K) (V := V) H pKV pK line n intg with
    | err e => rw [hstep] at hsucc; simp at hsucc
    | panicked => rw [hstep] at hsucc; simp at hsucc
    | op o intg2 =>
      rw [hstep] at hsucc
      have hsucc2 : (loadLinesGo H pKV pK rest (n + 1) intg2).2 = .success := hsucc
      show (o :: (loadLinesGo H pKV pK (rest ++ [last]) (n + 1) intg2).1,
            (loadLinesGo H pKV pK (rest ++ [last]) (n + 1) intg2).2) =
        (o :: (loadLinesGo H pKV pK rest (n + 1) intg2).1,
         .failure (.lastLineWithoutEndLine (n + (line :: rest).length)))
      rw [ih (n + 1) intg2 last hsucc2 hlast]
      simp only [List.length_cons]
      have harith : n + 1 + rest.length = n + (rest.length + 1) := by omega
      rw [harith]

/-- Part (c): when every line ends with the byte 10, the loader never
reports `LastLineWithoutEndLine`. -/
theorem loadLinesGo_terminated_no_lastline_err {K V : Type} (H : HashPrims)
    (pKV : List Nat → Option (K × V)) (pK : List Nat → Option K) :
    ∀ (lines : List (List Nat)) (n : Nat) (intg : Option Integrity),
    (∀ l ∈ lines, l.getLast? = some 10) →
    ∀ i, (loadLinesGo H pKV pK lines n intg).2 ≠
      .failure (.lastLineWithoutEndLine i) := by
  intro lines
  induction lines with
  | nil => intro n intg _ i; simp [loadLinesGo]
  | cons line rest ih =>
    intro n intg hall i
    simp only [loadLinesGo]
    cases hstep : processLine (K := K) (V := V) H pKV pK line n intg with
    | err e =>
      have hline : line.getLast? = some 10 := hall line (List.mem_cons_self line rest)
      have hnot : e ≠ .lastLineWithoutEndLine i ∧
          ∀ j, e ≠ .lastLineWithoutEndLine j := by
        unfold processLine at hstep
        rw [if_neg (by simp [hline])] at hstep
        constructor
        · intro he
          subst he
          split at hstep
          · simp at hstep
          · split at hstep <;> try simp at hstep
            · rename_i heq
              split at hstep <;> try simp at hstep
              split at hstep <;> try simp at hstep
              · split at hstep <;> simp at hstep
              split at hstep
              · split at hstep <;> simp at hstep
              · simp at hstep
        · intro j he
          subst he
          split at hstep
          · simp at hstep
          · split at hstep <;> try simp at hstep
            · rename_i heq
              split at hstep <;> try simp at hstep
              split at hstep <;> try simp at hstep
              · split at hstep <;> simp at hstep
              split at hstep
              · split at hstep <;> simp at hstep
              · simp at hstep
      simp [hnot.2 i]
    | panicked => simp
    | op o intg2 =>
      simp only []
      exact ih (n + 1) intg2 (fun l hlm => hall l (List.mem_cons_of_mem line hlm)) i

/-! ## The claims -/

/-- C1: the write/read round-trip claim fails on the code.  In the binary
format, a single insert whose record block is 265 bytes long (248-byte
value) is encoded by the library's own record builder, yet loading the
resulting log under the same configuration does not return the operation:
the encoder emits the 2-byte length class followed by all 8 bytes of the
`usize` length, the reader consumes only 2 of them, and the 6 stray zero
bytes corrupt the stream (here: a bincode decode error at record 1). -/
theorem C1_binary_roundtrip_fails :
    loadFromBinFile trivialHash binDeserKVVec binDeserKNat
        (binEncodeListVec trivialHash [.insert 0 bigVal] none).1 1 none
      = ([], .failure (.deserializeBincodeError 1)) ∧
    loadFromBinFile trivialHash binDeserKVVec binDeserKNat
        (binEncodeListVec trivialHash [.insert 0 bigVal] none).1 1 none
      ≠ ([.insert 0 bigVal], .success) := by
  refine ⟨by decide, by decide⟩

/-- C2 counterexample: after `insert(0,0)` then `remove(0)` against a fresh
wrapper with one (identity-keyed) index, the bucket for index key 0 remains
in the index with an empty key set — the claim "the index map contains no
bucket whose key set is empty" is false on the code. -/
theorem C2_counterexample_empty_bucket_remains :
    ¬ NoEmptyBuckets (wrapperRun trivialHash (fun x => x)
        [.insert 0 0, .remove 0]).idx := by
  intro h
  exact h 0 ∅ (by decide) rfl

/-- C2 (amended): `Index::on_remove`/`on_insert` never delete a bucket (the
`IndexMap` trait has no removal), so a bucket whose key set becomes empty
remains in the index.  What does hold after every sequence of wrapper
inserts and removes from a fresh map and index: every key in any bucket is
present in the map and its value derives exactly that bucket's index key. -/
theorem C2_empty_buckets_kept_members_correct (H : HashPrims) (f : Nat → Nat)
    (ops : List (MapOperation Nat Nat)) (ik : Nat) (B : Finset Nat)
    (hB : lookupA (wrapperRun H f ops).idx ik = some B) :
    ∀ k ∈ B, ∃ v, lookupA (wrapperRun H f ops).map k = some v ∧ f v = ik :=
  IdxCorrect_wrapperRun H f ops ik B hB

/-- C2 witness: the amended invariant at a concrete run. -/
theorem C2_empty_buckets_kept_members_correct_witness :
    ∃ v, lookupA (wrapperRun trivialHash (fun x => x) [.insert 5 6]).map 5 =
      some v ∧ (fun x => x) v = 6 :=
  C2_empty_buckets_kept_members_correct trivialHash (fun x => x) [.insert 5 6]
    6 {5} (by decide) 5 (by decide)

/-- C3: SerializeError atomicity fails for `remove`.  The source removes the
key from the in-memory map before serializing; when serialization of the
key fails, the error returns with the key already gone (index, seed and
queue are indeed untouched, but the map is not as it was).  Here: map
{0 ↦ 5}, serializer failing on key 0 — the call returns the error and the
map is empty. -/
theorem C3_remove_serialize_error_mutates_map :
    wrapperRemoveText trivialHash serFail none (fun x => x)
        ⟨[(0, 5)], [(0, {0})], none, []⟩ 0 =
      (.error .json, ⟨[], [(0, {0})], none, []⟩) ∧
    (wrapperRemoveText trivialHash serFail none (fun x => x)
        ⟨[(0, 5)], [(0, {0})], none, []⟩ 0).2.map ≠ [(0, 5)] :=
  ⟨rfl, by decide⟩

/-- C4: the binary length prefix does not have the width the class byte
announces.  For a block length of 300 the encoder emits class byte 0b01
followed by all 8 little-endian bytes of the `usize` length (9 bytes in
all), while the reader consumes exactly 2 length bytes after the class
byte: decoding the encoder's own prefix returns 300 but stops 6 bytes
before the start of the block. -/
theorem C4_length_prefix_width_mismatch :
    binBlockLen 300 = [1, 44, 1, 0, 0, 0, 0, 0, 0] ∧
    readBinBlockLen (binBlockLen 300 ++ [99]) = .ok 300 [0, 0, 0, 0, 0, 0, 99] ∧
    readBinBlockLen (binBlockLen 300 ++ [99]) ≠ .ok 300 [99] := by
  refine ⟨by decide, by decide, by decide⟩

/-- C5 counterexample: a well-formed block with op byte 2 (outside
{0x00, 0x01}) followed by a valid insert block.  Loading does not halt with
a decode error at record 1: it succeeds, the unknown block is silently
skipped, and the following record is still delivered to the sink. -/
theorem C5_counterexample_unknown_opcode_not_error :
    loadFromBinFile trivialHash binDeserKVNat binDeserKNat
        ([0, 1, 7] ++ (binFileBlockOfInsert trivialHash binSerKVNat 3 4 none).1)
        1 none
      = ([.insert 3 4], .success) := by decide

/-- C5 (amended): a block whose op byte is outside {0x00, 0x01} falls into
the wildcard arm of the source's match, which does nothing: the block is
silently skipped — no operation is delivered for it and no error is raised
— and loading continues with the next block under the next record index
(shown here under integrity `none`). -/
theorem C5_unknown_opcode_skipped {K V : Type} (H : HashPrims)
    (dKV : List Nat → Option (K × V)) (dK : List Nat → Option K)
    (b : Nat) (hb : 2 ≤ b) (rest : List Nat) (n : Nat) :
    loadFromBinFile H dKV dK (0 :: 1 :: b :: rest) n none =
      loadFromBinFile H dKV dK rest (n + 1) none := by
  obtain ⟨m, rfl⟩ : ∃ m, b = m + 2 := ⟨b - 2, by omega⟩
  unfold loadFromBinFile
  simp only [List.length_cons]
  exact loadBinGo_fuel H dKV dK (rest.length + 1 + 1 + 1) rest (rest.length + 1)
    (n + 1) none (by omega) (by omega)

/-- C5 witness: the amended skip behaviour at a concrete input. -/
theorem C5_unknown_opcode_skipped_witness :
    loadFromBinFile trivialHash binDeserKVNat binDeserKNat (0 :: 1 :: 7 :: []) 1 none =
      loadFromBinFile trivialHash binDeserKVNat binDeserKNat [] 2 none :=
  C5_unknown_opcode_skipped trivialHash binDeserKVNat binDeserKNat 7 (by decide) [] 1

/-- C6 counterexample: `convert` ignores the destination format.  Source: a
text log with one insert; destination configuration: binary, no integrity.
The converter writes the destination in the TEXT format (output equals the
text encoding), and loading the destination under the binary dst_cfg does
not yield the transformed operations — it fails. -/
theorem C6_counterexample_dst_format_ignored :
    convert trivialHash .text none none (fun op => op)
        (textEncodeList trivialHash [.insert 0 0] none).1 =
      .ok (textEncodeList trivialHash [.insert 0 0] none).1 ∧
    loadFromBinFile trivialHash binDeserKVNat binDeserKNat
        (textEncodeList trivialHash [.insert 0 0] none).1 1 none ≠
      ([.insert 0 0], .success) := by
  refine ⟨by decide, by decide⟩

/-- C6 (amended): `convert` honours the destination INTEGRITY setting but
always encodes with the text codec (`dst_cfg.format` is never consulted).
Whenever the source loads successfully under its own format and integrity,
convert succeeds, its output is the text encoding of the record-by-record
transforms under the destination integrity, and loading that output with
the TEXT loader under the destination integrity yields exactly the
transformed operations. -/
theorem C6_convert_writes_text (H : HashPrims) (srcFmt : Format)
    (srcIntg dstIntg : Option Integrity)
    (f : MapOperation Nat Nat → MapOperation Nat Nat) (src : List Nat)
    (ops : List (MapOperation Nat Nat))
    (hload : (match srcFmt with
              | .text => loadTextNat H src srcIntg
              | .bin => loadFromBinFile H binDeserKVNat binDeserKNat src 1 srcIntg)
             = (ops, .success)) :
    convert H srcFmt srcIntg dstIntg f src =
      .ok (textEncodeList H (ops.map f) dstIntg).1 ∧
    loadTextNat H (textEncodeList H (ops.map f) dstIntg).1 dstIntg =
      (ops.map f, .success) := by
  constructor
  · unfold convert
    rw [hload]
  · exact loadText_roundtrip H (ops.map f) dstIntg

/-- C6 witness: converting a one-record text source into a crc32 text
destination. -/
theorem C6_convert_writes_text_witness :
    convert trivialHash .text none (some .crc32) (fun op => op)
        (textEncodeList trivialHash [.insert 3 4] none).1 =
      .ok (textEncodeList trivialHash
        ([MapOperation.insert 3 4].map (fun op => op)) (some .crc32)).1 ∧
    loadTextNat trivialHash (textEncodeList trivialHash
        ([MapOperation.insert 3 4].map (fun op => op)) (some .crc32)).1
        (some .crc32) =
      ([MapOperation.insert 3 4].map (fun op => op), .success) :=
  C6_convert_writes_text trivialHash .text none (some .crc32) (fun op => op)
    (textEncodeList trivialHash [.insert 3 4] none).1 [.insert 3 4] (by decide)

/-- C7: the before-write hook is applied once in the text branch of
`MapWithFile::insert` but twice in the binary branch (two identical
`if let` blocks).  With a hook appending the byte 255, the text wrapper
enqueues the line with one 255 appended while the binary wrapper enqueues
the block with 255 appended twice — not one application of the hook. -/
theorem C7_before_write_hook_applied_twice_in_bin :
    (wrapperInsertText trivialHash (fun a b => some (jsonKVNat a b))
        (some appendByte) (fun x => x) ⟨[], [], none, []⟩ 0 1).2.queue =
      [(textFileLineOfInsertNat trivialHash 0 1 none).1 ++ [255]] ∧
    (wrapperInsertBin trivialHash (fun a b => some (binSerKVNat a b))
        (some appendByte) (fun x => x) ⟨[], [], none, []⟩ 0 1).2.queue =
      [(binFileBlockOfInsert trivialHash binSerKVNat 0 1 none).1 ++ [255, 255]] ∧
    (binFileBlockOfInsert trivialHash binSerKVNat 0 1 none).1 ++ [255, 255] ≠
      (binFileBlockOfInsert trivialHash binSerKVNat 0 1 none).1 ++ [255] := by
  refine ⟨rfl, rfl, by decide⟩

/-- C9 counterexample: input `xxxx\nrem 1` — the final line is unterminated
(record 2), but loading fails at record 1 with `NoLineDefinition`, not with
an error carrying the unterminated record's index 2. -/
theorem C9_counterexample_earlier_error_wins :
    loadTextNat trivialHash [120, 120, 120, 120, 10, 114, 101, 109, 32, 49] none
      = ([], .failure (.noLineDefinition 1)) ∧
    LoadFileError.noLineDefinition 1 ≠ .lastLineWithoutEndLine 2 := by
  refine ⟨by decide, by decide⟩

/-- C9 (amended): an input whose final line is not terminated by the byte
10 never loads successfully (part 1); when every earlier line processes
successfully, loading the lines with the unterminated one appended fails
with `LastLineWithoutEndLine` carrying exactly that record's 1-based index,
with exactly the earlier operations delivered (part 2); and an input whose
final byte is 10 (every record ends with a newline) is never rejected with
`LastLineWithoutEndLine` (part 3). -/
theorem C9_unterminated_trailing_line :
    (∀ (H : HashPrims) (input : List Nat) (intg : Option Integrity) (b : Nat),
      input.getLast? = some b → b ≠ 10 →
      (loadTextNat H input intg).2 ≠ .success) ∧
    (∀ (H : HashPrims) (pre : List (List Nat)) (n : Nat)
       (intg : Option Integrity) (last : List Nat),
      (loadLinesGo H parseKVNat parseKNat pre n intg).2 = .success →
      last.getLast? ≠ some 10 →
      loadLinesGo H parseKVNat parseKNat (pre ++ [last]) n intg =
        ((loadLinesGo H parseKVNat parseKNat pre n intg).1,
         .failure (.lastLineWithoutEndLine (n + pre.length)))) ∧
    (∀ (H : HashPrims) (input : List Nat) (intg : Option Integrity),
      input.getLast? = some 10 →
      ∀ i, (loadTextNat H input intg).2 ≠
        .failure (.lastLineWithoutEndLine i)) := by
  refine ⟨?_, ?_, ?_⟩
  · intro H input intg b hin hb
    obtain ⟨last, hl1, hl2⟩ := splitNlAux_last_unterminated input [] b hin hb
    exact loadLinesGo_unterminated_no_success H parseKVNat parseKNat
      (splitNl input) 1 intg last hl1 hl2
  · intro H pre n intg last hs hl
    exact loadLinesGo_unterminated_exact H parseKVNat parseKNat pre n intg last hs hl
  · intro H input intg hin i
    exact loadLinesGo_terminated_no_lastline_err H parseKVNat parseKNat
      (splitNl input) 1 intg (splitNlAux_all_terminated input [] hin) i

/-- C9 witness: the three parts at concrete inputs (`rem 1` unterminated;
one good insert line followed by the unterminated `rem 1`; `rem 1`
terminated). -/
theorem C9_unterminated_trailing_line_witness :
    (loadTextNat trivialHash [114, 101, 109, 32, 49] none).2 ≠ .success ∧
    loadLinesGo trivialHash parseKVNat parseKNat
        ([(textEncodeOp trivialHash (.insert 0 0) none).1] ++
          [[114, 101, 109, 32, 49]]) 1 none =
      ((loadLinesGo trivialHash parseKVNat parseKNat
          [(textEncodeOp trivialHash (.insert 0 0) none).1] 1 none).1,
       .failure (.lastLineWithoutEndLine 2)) ∧
    (loadTextNat trivialHash [114, 101, 109, 32, 49, 10] none).2 ≠
      .failure (.lastLineWithoutEndLine 1) := by
  refine ⟨C9_unterminated_trailing_line.1 trivialHash _ none 49 (by decide) (by decide),
    ?_, C9_unterminated_trailing_line.2.2 trivialHash _ none (by decide) 1⟩
  exact C9_unterminated_trailing_line.2.1 trivialHash
    [(textEncodeOp trivialHash (.insert 0 0) none).1] 1 none
    [114, 101, 109, 32, 49] (by decide) (by decide)

/-- C10: the text loader is not total — it can panic.  The line
`a 3904355907\n` under Crc32 integrity passes the newline and minimum
length checks, and its tag equals crc32("a") so verification succeeds and
strips the tag; the remaining significant bytes "a" have length 1, and the
source then evaluates `&line_data[..4]`, an out-of-bounds slice: a panic,
not an `Ok` or a typed `LoadFileError`. -/
theorem C10_text_loader_panics :
    loadTextNat trivialHash [97, 32, 51, 57, 48, 52, 51, 53, 53, 57, 48, 55, 10]
      (some .crc32) = ([], .panicked) := by decide

end Diskomap
